import Mathlib

/-!
# Verification of the `py_cheat` section parser and viewer

This file gives a shallow embedding, over `List Char`, of the section parser
(`parse_content`) and the viewer entry points (`show_section`,
`show_full_sheet`, `show_available_sheets`, `get_sheet_content`) found in
`src/main.rs` of the `py_cheat` repository, and proves the specified
properties about them.

Conventions:
* Lines are `List Char`; a whole text is a `List Char`, and the program
  boundary takes a `String` (converted by `.data`).
* A Rust panic (out-of-bounds index or slice) is modelled by `Option`:
  `none` means the corresponding Rust code panics, `some` is normal return.
  The Rust `parse_content` returns `Result` but never constructs `Err`, so
  its error branch does not appear in the model.
-/

namespace PyCheat

/-- The fixed delimiter marker `"# ----"` (as a list of characters). -/
def delimMarker : List Char := ['#', ' ', '-', '-', '-', '-']

/-- The fixed header marker `"# "` used by `starts_with("# ")` and
`trim_start_matches("# ")`. -/
def hashMarker : List Char := ['#', ' ']

/-- Model of Rust `str::trim_start_matches("# ")`: repeatedly strip the
two-character marker `"# "` from the front. -/
def trimHash : List Char → List Char
  | [] => []
  | [c] => [c]
  | c1 :: c2 :: r => if c1 = '#' ∧ c2 = ' ' then trimHash r else c1 :: c2 :: r

/-- Model of Rust `str::split_once(". ")`: split at the first occurrence of
the two-character pattern `". "`, returning the parts before and after it,
or `none` when the pattern does not occur. -/
def splitOnce : List Char → Option (List Char × List Char)
  | [] => none
  | [_] => none
  | c1 :: c2 :: r =>
    if c1 = '.' ∧ c2 = ' ' then some ([], r)
    else
      match splitOnce (c2 :: r) with
      | none => none
      | some (a, b) => some (c1 :: a, b)

/-- Decimal value of a digit list (used only on all-digit lists). -/
def digitsToNat (t : List Char) : Nat :=
  t.foldl (fun a c => a * 10 + (c.toNat - 48)) 0

/-- Shared core of unsigned integer parsing after the optional sign:
requires a nonempty run of ASCII digits whose value fits below `bound`
(overflow is a parse error in Rust). -/
def parseUnsignedCore (bound : Nat) (t : List Char) : Option Nat :=
  if t ≠ [] ∧ t.all Char.isDigit then
    let v := digitsToNat t
    if v < bound then some v else none
  else none

/-- Model of Rust `str::parse::<u32>()`: an optional leading `'+'`, then a
nonempty run of ASCII digits, value below `2^32`. -/
def parseU32 (s : List Char) : Option Nat :=
  match s with
  | '+' :: r => parseUnsignedCore 4294967296 r
  | _ => parseUnsignedCore 4294967296 s

/-- Model of Rust `str::parse::<usize>()` on a 64-bit target: an optional
leading `'+'`, then a nonempty run of ASCII digits, value below `2^64`. -/
def parseUSize (s : List Char) : Option Nat :=
  match s with
  | '+' :: r => parseUnsignedCore 18446744073709551616 r
  | _ => parseUnsignedCore 18446744073709551616 s

/-- Helper for `rustLines'`: prepend a character to the first line of an
already-split tail, starting a fresh line when there is none. -/
def prependLine (c : Char) : List (List Char) → List (List Char)
  | [] => [[c]]
  | l :: ls => (c :: l) :: ls

/-- Model of Rust `str::lines()` on a character list: split at `'\n'`,
treating `"\r\n"` as a single line ending (the `'\r'` is stripped only when
immediately followed by `'\n'`); a final line ending produces no trailing
empty line. -/
def rustLines' : List Char → List (List Char)
  | [] => []
  | '\r' :: '\n' :: cs => [] :: rustLines' cs
  | '\n' :: cs => [] :: rustLines' cs
  | c :: cs => prependLine c (rustLines' cs)

/-- One titled section of a document (struct `Section` in `main.rs`). -/
structure Section where
  title : List Char
  content : List Char
deriving DecidableEq, Repr

/-- An ordered collection of sections (struct `CheatSheet` in `main.rs`). -/
structure CheatSheet where
  sections : List Section
deriving DecidableEq, Repr

/-- Model of `line.starts_with("# ----")`, the delimiter-line test of the parser. -/
def isDelimLine (l : List Char) : Bool := delimMarker.isPrefixOf l

/-- The header-line test applied to the line after a delimiter: it starts
with `"# "` and, after stripping that marker, contains `". "`. -/
def isHeaderLine (l : List Char) : Bool :=
  hashMarker.isPrefixOf l && (splitOnce (trimHash l)).isSome

/-- Does the scan in `parse_content` record index `i` as a section start?
It requires `lines[i]` to start with `"# ----"` and `lines[i+1]` to exist,
start with `"# "`, and contain `". "` after stripping the marker. -/
def isStartAt (ls : List (List Char)) (i : Nat) : Bool :=
  match ls[i]?, ls[i+1]? with
  | some l0, some l1 => isDelimLine l0 && isHeaderLine l1
  | _, _ => false

/-- The `section_starts` vector: all indices recorded by the scan loop, in
increasing order. -/
def sectionStarts (ls : List (List Char)) : List Nat :=
  (List.range ls.length).filter (fun i => isStartAt ls i)

/-- The Rust slice `lines[a..b]` (meaningful when `a ≤ b ≤ ls.length`;
bounds are checked by the caller, mirroring the slice's panic). -/
def sliceLines (ls : List (List Char)) (a b : Nat) : List (List Char) :=
  (ls.drop a).take (b - a)

/-- Model of the Rust vector join with `"\n"`: join lines with single line breaks. -/
def joinLines : List (List Char) → List Char
  | [] => []
  | [l] => l
  | l :: ls => l ++ '\n' :: joinLines ls

/-- The body of the processing loop of `parse_content` for one recorded
start `s` with block end `e`: outer `none` models a panic (the unchecked
`lines[start_idx + 2]` access or the `lines[start_idx + 3 .. end_idx]`
slice), inner `none` means the candidate produces no section. -/
def processSection (ls : List (List Char)) (s e : Nat) :
    Option (Option Section) :=
  match ls[s+1]? with
  | none => some none
  | some titleLine =>
    match splitOnce (trimHash titleLine) with
    | none => some none
    | some (num, sectionTitle) =>
      if (parseU32 num).isSome then
        match ls[s]?, ls[s+2]? with
        | some l0, some l2 =>
          if s + 3 ≤ e ∧ e ≤ ls.length then
            some (some
              { title := sectionTitle
                content :=
                  l0 ++ '\n' :: (titleLine ++ '\n' ::
                    (l2 ++ '\n' :: joinLines (sliceLines ls (s+3) e))) })
          else none
        | _, _ => none
      else some none

/-- The `end_idx` of the processing loop: the next recorded start, or
`lines.len()` when processing the last recorded start. -/
def endIdx (ls : List (List Char)) : List Nat → Nat
  | [] => ls.length
  | s2 :: _ => s2

/-- The processing loop of `parse_content` over the recorded starts: each
start is paired with the next one (or `lines.len()` for the last). -/
def processAll (ls : List (List Char)) : List Nat → Option (List Section)
  | [] => some []
  | s :: rest =>
    match processSection ls s (endIdx ls rest), processAll ls rest with
    | some o, some secs => some (o.toList ++ secs)
    | _, _ => none

/-- Model of `parse_content` from `main.rs`: split into lines, record section
starts, then build each section.  `none` models a panic; the Rust function
otherwise always returns `Ok`. -/
def parse_content (s : String) : Option CheatSheet :=
  let ls := rustLines' s.data
  (processAll ls (sectionStarts ls)).map (fun secs => { sections := secs })

/-! ## The viewer layer (`show_section`, `show_full_sheet`,
`show_available_sheets`, `get_sheet_content` from `main.rs`)

The three embedded documents (`Basics.py`, `Intermediate.py`,
`Advanced.py`, pulled in by `include_str!`) are not part of the sources;
they are modelled as the unknown fields of `EmbeddedSheets`. -/

/-- The contents of the three embedded documents (unknown data). -/
structure EmbeddedSheets where
  basics : String
  intermediate : String
  advanced : String

/-- Observable outcome of one viewer invocation: either some text printed
to standard output, or one of the three error messages printed to standard
error (each followed by `process::exit(1)` in the source). -/
inductive CmdResult where
  /-- Text written to standard output. -/
  | printed (s : List Char)
  /-- `"Error: Could not find sheet {name}"`. -/
  | errUnknownSheet
  /-- `"Error: Invalid section number"`. -/
  | errInvalidSection
  /-- `"Error: Section number must be a positive integer"`. -/
  | errNotInteger
deriving DecidableEq, Repr

/-- Model of `get_sheet_content` from `main.rs`: name lookup over the fixed set. -/
def get_sheet_content (env : EmbeddedSheets) (name : String) : Option String :=
  if name = "Basics" then some env.basics
  else if name = "Intermediate" then some env.intermediate
  else if name = "Advanced" then some env.advanced
  else none

/-- Model of `show_section` from `main.rs`.  `none` models a panic inside
`parse_content`; the source's `if let Ok` never sees an `Err`.  The
in-range index into `sections` is modelled with a checked access (it can
never be out of range under the guard, mirroring the Rust index). -/
def show_section (env : EmbeddedSheets) (name selector : String) :
    Option CmdResult :=
  match get_sheet_content env name with
  | none => some .errUnknownSheet
  | some content =>
    match parse_content content with
    | none => none
    | some cheatSheet =>
      match parseUSize selector.data with
      | none => some .errNotInteger
      | some sectionIdx =>
        if 0 < sectionIdx ∧ sectionIdx ≤ cheatSheet.sections.length then
          match cheatSheet.sections[sectionIdx - 1]? with
          | some sec => some (.printed sec.content)
          | none => none
        else some .errInvalidSection

/-- Model of `show_full_sheet` from `main.rs`: print the raw document text. -/
def show_full_sheet (env : EmbeddedSheets) (name : String) : CmdResult :=
  match get_sheet_content env name with
  | some content => .printed content.data
  | none => .errUnknownSheet

/-- One line of the listing loop in `show_available_sheets`:
`"{prefix} {i+1}. {title}"` with prefix `"└──"` for the last entry
(`i == sections.len() - 1`) and `"├──"` otherwise. -/
def sectionLine (n i : Nat) (sec : Section) : List Char :=
  (if i = n - 1 then "└──".data else "├──".data) ++
    ' ' :: (Nat.toDigits 10 (i + 1) ++ '.' :: ' ' :: sec.title)

/-- The inner loop of `show_available_sheets`: one printed line per parsed
section, in order (`for (i, section) in sections.iter().enumerate()`). -/
def listingLines (sections : List Section) : List (List Char) :=
  sections.enum.map (fun p => sectionLine sections.length p.1 p.2)

/-- Model of `show_available_sheets` from `main.rs`, as the list of printed lines:
for each of the three sheets (in their fixed order), the sheet name then
the listing lines of its parsed sections.  `none` models a panic inside
`parse_content`. -/
def show_available_sheets (env : EmbeddedSheets) :
    Option (List (List Char)) :=
  match parse_content env.basics, parse_content env.intermediate,
      parse_content env.advanced with
  | some c1, some c2, some c3 =>
    some (("Basics".data :: listingLines c1.sections) ++
      ("Intermediate".data :: listingLines c2.sections) ++
      ("Advanced".data :: listingLines c3.sections))
  | _, _, _ => none

/-! ## Well-formed section blocks

The spec speaks of documents "composed of N well-formed section blocks".
A block is a delimiter line `"# ----"`, a header line
`"# <num>. <title>"`, a closing delimiter line, and a body.  `WFBlock`
formalizes well-formedness: the declared number parses, lines carry no
line-break characters, the body is nonempty and contains no line that the
scanner could mistake for a delimiter or header candidate. -/

/-- A well-formed section block: declared number string, title, body. -/
structure Block where
  numStr : List Char
  title : List Char
  body : List (List Char)
deriving DecidableEq

/-- The header line `"# <num>. <title>"` of a block. -/
def headerOf (b : Block) : List Char :=
  '#' :: ' ' :: (b.numStr ++ '.' :: ' ' :: b.title)

/-- The lines of one block: delimiter, header, delimiter, body. -/
def blockLines (b : Block) : List (List Char) :=
  delimMarker :: headerOf b :: delimMarker :: b.body

/-- All lines of a document composed of the given blocks, in order. -/
def docLines : List Block → List (List Char)
  | [] => []
  | b :: rest => blockLines b ++ docLines rest

/-- The text of a document composed of the given blocks (single `'\n'`
separators, no trailing line terminator). -/
def docText (bs : List Block) : List Char := joinLines (docLines bs)

/-- A line payload free of line-break characters. -/
def cleanLine (l : List Char) : Prop := '\n' ∉ l ∧ '\r' ∉ l

instance (l : List Char) : Decidable (cleanLine l) :=
  inferInstanceAs (Decidable ('\n' ∉ l ∧ '\r' ∉ l))

/-- Well-formedness of one block (see section header above). -/
def WFBlock (b : Block) : Prop :=
  (parseU32 b.numStr).isSome = true ∧
  cleanLine b.title ∧
  b.body ≠ [] ∧
  (∀ l ∈ b.body, cleanLine l ∧ isDelimLine l = false) ∧
  (∀ l ∈ b.body.head?.toList, isHeaderLine l = false)

instance (b : Block) : Decidable (WFBlock b) :=
  inferInstanceAs (Decidable ((parseU32 b.numStr).isSome = true ∧
    cleanLine b.title ∧ b.body ≠ [] ∧
    (∀ l ∈ b.body, cleanLine l ∧ isDelimLine l = false) ∧
    (∀ l ∈ b.body.head?.toList, isHeaderLine l = false)))

/-- The line indices at which the blocks of a document begin, starting
from a given offset. -/
def startIndicesAux : Nat → List Block → List Nat
  | _, [] => []
  | off, b :: rest => off :: startIndicesAux (off + (blockLines b).length) rest

/-- Sample document used by the concrete witnesses. -/
def sampleDoc : String := "# ----\n# 1. T\nx"

/-- Sample embedded-sheet table used by the concrete witnesses. -/
def sampleSheets : EmbeddedSheets := ⟨sampleDoc, "", ""⟩

/-! ## Claim theorems (simple cases) -/

/-- C1: the claim states that `parse_content` returns without panicking on
every input and that the accesses `lines[start_idx + 2]` and
`lines[start_idx + 3 .. end_idx]` are always in bounds.  The code violates
this: on the two-line input `"# ----\n# 1. T"` the scan records a section
start at line 0, the declared number parses, and the reconstruction then
reads `lines[2]`, which is out of bounds — a panic (modelled by `none`). -/
theorem parse_content_panics_on_truncated_block :
    parse_content "# ----\n# 1. T" = none := by decide

/-- C5: on the four-line example document, `parse` yields exactly one
section, titled `"Variables"`, whose content is all four input lines
joined by line breaks (here: the whole input). -/
theorem parse_concrete_example :
    parse_content "# ----\n# 1. Variables\n# ----\nx = 5  # comment" =
      some ⟨[⟨"Variables".data,
        "# ----\n# 1. Variables\n# ----\nx = 5  # comment".data⟩]⟩ := by
  decide

/-- C3 counterexample: the claim requires line `i+2` to be another
delimiter line for a section start to be recognized, and says a candidate
lacking the closing delimiter produces no section.  On
`"# ----\n# 1. T\na\nb"` line 2 is `"a"` — not a delimiter line — yet the
parser produces a section covering all four lines. -/
theorem section_without_closing_delim_cex :
    parse_content "# ----\n# 1. T\na\nb" =
      some ⟨[⟨"T".data, "# ----\n# 1. T\na\nb".data⟩]⟩ ∧
    isDelimLine (( rustLines' "# ----\n# 1. T\na\nb".data).getD 2 []) =
      false := by decide

/-- C3 (amended): the scan records a section start at `i` iff line `i`
starts with `"# ----"` and line `i+1` exists, starts with `"# "`, and
contains `". "` after stripping leading `"# "` markers; neither line `i+2`
nor the parseability of the declared number is examined at recognition
time. -/
theorem sectionStarts_characterization (ls : List (List Char)) (i : Nat) :
    i ∈ sectionStarts ls ↔
      ∃ l0 l1, ls[i]? = some l0 ∧ ls[i+1]? = some l1 ∧
        isDelimLine l0 = true ∧ hashMarker.isPrefixOf l1 = true ∧
        (splitOnce (trimHash l1)).isSome = true := by
  constructor
  · intro h
    have h' := List.mem_filter.mp h
    have hi : i < ls.length := List.mem_range.mp h'.1
    have hs : isStartAt ls i = true := h'.2
    unfold isStartAt at hs
    cases e0 : ls[i]? with
    | none => rw [e0] at hs; exact absurd hs (by simp)
    | some l0 =>
      cases e1 : ls[i+1]? with
      | none => rw [e0, e1] at hs; exact absurd hs (by simp)
      | some l1 =>
        rw [e0, e1] at hs
        simp only [Bool.and_eq_true, isHeaderLine] at hs
        exact ⟨l0, l1, rfl, rfl, hs.1, hs.2.1, hs.2.2⟩
  · rintro ⟨l0, l1, e0, e1, hd, hh1, hh2⟩
    apply List.mem_filter.mpr
    have hi : i < ls.length := (List.getElem?_eq_some_iff.mp e0).1
    refine ⟨List.mem_range.mpr hi, ?_⟩
    have : isStartAt ls i = true := by
      unfold isStartAt
      rw [e0, e1]
      simp [isHeaderLine, hd, hh1, hh2]
    simpa using this

/-- C4 counterexample: the claim says a header declaring the number `0`
does not produce a section, but `"0"` parses as a `u32`, so the document
`"# ----\n# 0. T\n# ----\nx"` yields one section (whose header's leading
token is exactly `"0"`). -/
theorem zero_header_produces_section_cex :
    parse_content "# ----\n# 0. T\n# ----\nx" =
      some ⟨[⟨"T".data, "# ----\n# 0. T\n# ----\nx".data⟩]⟩ ∧
    (splitOnce (trimHash "# 0. T".data)).map Prod.fst =
      some "0".data := by decide

/-- C4 (amended): a recorded candidate whose header's leading token does
not parse as a `u32` (a nonnegative integer below `2^32`; zero *is*
accepted) produces no section and raises no error, and processing simply
continues with the remaining candidates. -/
theorem unparseable_num_skips_candidate (ls : List (List Char)) (s : Nat)
    (rest : List Nat) (titleLine num t : List Char)
    (hline : ls[s+1]? = some titleLine)
    (hsplit : splitOnce (trimHash titleLine) = some (num, t))
    (hnum : parseU32 num = none) :
    processAll ls (s :: rest) = processAll ls rest := by
  have hsec : ∀ e, processSection ls s e = some none := by
    intro e
    simp [processSection, hline, hsplit, hnum]
  cases hr : processAll ls rest <;> simp [processAll, hsec, hr]

/-- C4 witness: concrete rejected candidate (`"a"` fails to parse), with
the scan continuing to an empty result. -/
theorem unparseable_num_skips_candidate_witness :
    (["# ----".data, "# a. T".data][0+1]? = some "# a. T".data ∧
      splitOnce (trimHash "# a. T".data) = some ("a".data, "T".data) ∧
      parseU32 "a".data = none) ∧
    processAll ["# ----".data, "# a. T".data] (0 :: []) =
      processAll ["# ----".data, "# a. T".data] [] :=
  ⟨by decide,
    unparseable_num_skips_candidate ["# ----".data, "# a. T".data] 0 []
      "# a. T".data "a".data "T".data (by decide) (by decide) (by decide)⟩

/-- C7: any document name outside `{"Basics", "Intermediate", "Advanced"}`
yields the unknown-document error for both a full-document request and a
section request, never rendered output. -/
theorem unknown_sheet_errors (env : EmbeddedSheets) (name : String)
    (h1 : name ≠ "Basics") (h2 : name ≠ "Intermediate")
    (h3 : name ≠ "Advanced") :
    show_full_sheet env name = .errUnknownSheet ∧
    ∀ selector, show_section env name selector = some .errUnknownSheet := by
  have hc : get_sheet_content env name = none := by
    unfold get_sheet_content
    rw [if_neg h1, if_neg h2, if_neg h3]
  constructor
  · unfold show_full_sheet
    rw [hc]
  · intro selector
    unfold show_section
    rw [hc]

/-- C7 witness: the unknown name `"Zzz"`. -/
theorem unknown_sheet_errors_witness :
    (("Zzz" : String) ≠ "Basics" ∧ ("Zzz" : String) ≠ "Intermediate" ∧
      ("Zzz" : String) ≠ "Advanced") ∧
    show_full_sheet sampleSheets "Zzz" = .errUnknownSheet ∧
    show_section sampleSheets "Zzz" "1" = some .errUnknownSheet :=
  ⟨by decide,
    (unknown_sheet_errors sampleSheets "Zzz" (by decide) (by decide)
      (by decide)).1,
    (unknown_sheet_errors sampleSheets "Zzz" (by decide) (by decide)
      (by decide)).2 "1"⟩

/-- C8: for a known document (whose parse returns), a section selector
that does not parse as a machine-sized nonnegative integer yields the
`"Section number must be a positive integer"` error, never a render. -/
theorem non_numeric_selector_errors (env : EmbeddedSheets)
    (name selector content : String) (cheatSheet : CheatSheet)
    (hc : get_sheet_content env name = some content)
    (hp : parse_content content = some cheatSheet)
    (hsel : parseUSize selector.data = none) :
    show_section env name selector = some .errNotInteger := by
  simp [show_section, hc, hp, hsel]

/-- C8 witness: the selector `"abc"` on the sample document. -/
theorem non_numeric_selector_errors_witness :
    (get_sheet_content sampleSheets "Basics" = some sampleDoc ∧
      parse_content sampleDoc =
        some ⟨[⟨"T".data, "# ----\n# 1. T\nx\n".data⟩]⟩ ∧
      parseUSize "abc".data = none) ∧
    show_section sampleSheets "Basics" "abc" = some .errNotInteger :=
  ⟨by decide,
    non_numeric_selector_errors sampleSheets "Basics" "abc" sampleDoc
      ⟨[⟨"T".data, "# ----\n# 1. T\nx\n".data⟩]⟩ (by decide) (by decide)
      (by decide)⟩

/-- C6: for a known document (whose parse returns), a selector parsing to
`0` or to an integer exceeding the number of parsed sections yields the
`"Invalid section number"` error, never a render. -/
theorem show_section_out_of_range (env : EmbeddedSheets)
    (name selector content : String) (cheatSheet : CheatSheet) (k : Nat)
    (hc : get_sheet_content env name = some content)
    (hp : parse_content content = some cheatSheet)
    (hk : parseUSize selector.data = some k)
    (hout : k = 0 ∨ cheatSheet.sections.length < k) :
    show_section env name selector = some .errInvalidSection := by
  have hno : ¬(0 < k ∧ k ≤ cheatSheet.sections.length) := by omega
  simp [show_section, hc, hp, hk, hno]

/-- C6 witness: the selector `"0"` on the sample document, which has one
parsed section. -/
theorem show_section_out_of_range_witness :
    (get_sheet_content sampleSheets "Basics" = some sampleDoc ∧
      parse_content sampleDoc =
        some ⟨[⟨"T".data, "# ----\n# 1. T\nx\n".data⟩]⟩ ∧
      parseUSize "0".data = some 0 ∧
      (0 = 0 ∨ (1 : Nat) < 0)) ∧
    show_section sampleSheets "Basics" "0" = some .errInvalidSection :=
  ⟨by decide,
    show_section_out_of_range sampleSheets "Basics" "0" sampleDoc
      ⟨[⟨"T".data, "# ----\n# 1. T\nx\n".data⟩]⟩ 0 (by decide) (by decide)
      (by decide) (Or.inl rfl)⟩

/-- C2 counterexample: the claim says plain concatenation of the content
fields reproduces the document byte-for-byte, but contents carry no
trailing line break, so on a two-block document the `'\n'` between the
blocks is lost. -/
theorem concat_contents_ne_doc_cex :
    parse_content "# ----\n# 1. A\n# ----\nx\n# ----\n# 2. B\n# ----\ny" =
      some ⟨[⟨"A".data, "# ----\n# 1. A\n# ----\nx".data⟩,
             ⟨"B".data, "# ----\n# 2. B\n# ----\ny".data⟩]⟩ ∧
    "# ----\n# 1. A\n# ----\nx".data ++ "# ----\n# 2. B\n# ----\ny".data ≠
      "# ----\n# 1. A\n# ----\nx\n# ----\n# 2. B\n# ----\ny".data := by
  decide

/-- Writing the two tree prefixes of the listing with their trailing
space, as the spec does. -/
theorem lastTreeMarker_data : "└── ".data = "└──".data ++ [' '] := by decide

/-- The middle tree marker with its trailing space. -/
theorem midTreeMarker_data : "├── ".data = "├──".data ++ [' '] := by decide

/-- C9: the listing prints, for each known document (whose parse returns),
its name followed by one line per parsed section in parse order; line `i`
(0-based) shows the 1-based number `i+1` and the section's title, with
tree prefix `"├── "` for every entry but the last and `"└── "` for the
last. -/
theorem listing_structure (env : EmbeddedSheets) (c1 c2 c3 : CheatSheet)
    (h1 : parse_content env.basics = some c1)
    (h2 : parse_content env.intermediate = some c2)
    (h3 : parse_content env.advanced = some c3) :
    show_available_sheets env =
      some (("Basics".data :: listingLines c1.sections) ++
        ("Intermediate".data :: listingLines c2.sections) ++
        ("Advanced".data :: listingLines c3.sections)) ∧
    ∀ (secs : List Section) (i : Nat) (sec : Section),
      secs[i]? = some sec →
        (listingLines secs)[i]? =
          some ((if i + 1 = secs.length then "└── " else "├── ").data ++
            (Nat.toDigits 10 (i+1) ++ '.' :: ' ' :: sec.title)) := by
  constructor
  · simp [show_available_sheets, h1, h2, h3]
  · intro secs i sec hget
    have hi : i < secs.length := (List.getElem?_eq_some_iff.mp hget).1
    have hmap : (listingLines secs)[i]? =
        some (sectionLine secs.length i sec) := by
      simp [listingLines, List.enum, hget]
    rw [hmap]
    by_cases hlast : i + 1 = secs.length
    · rw [if_pos hlast]
      have hi' : i = secs.length - 1 := by omega
      simp [sectionLine, hi', lastTreeMarker_data]
    · rw [if_neg hlast]
      have hi' : i ≠ secs.length - 1 := by omega
      simp [sectionLine, hi', midTreeMarker_data]

/-- C9 witness: the sample table, whose first sheet has one section and
the other two have none. -/
theorem listing_structure_witness :
    (parse_content sampleSheets.basics =
        some ⟨[⟨"T".data, "# ----\n# 1. T\nx\n".data⟩]⟩ ∧
      parse_content sampleSheets.intermediate = some ⟨[]⟩ ∧
      parse_content sampleSheets.advanced = some ⟨[]⟩ ∧
      ([⟨"T".data, "# ----\n# 1. T\nx\n".data⟩] :
        List Section)[0]? = some ⟨"T".data, "# ----\n# 1. T\nx\n".data⟩) ∧
    show_available_sheets sampleSheets =
      some (("Basics".data ::
          listingLines [⟨"T".data, "# ----\n# 1. T\nx\n".data⟩]) ++
        ("Intermediate".data :: listingLines []) ++
        ("Advanced".data :: listingLines [])) ∧
    (listingLines [⟨"T".data, "# ----\n# 1. T\nx\n".data⟩])[0]? =
      some ((if 0 + 1 = ([⟨"T".data, "# ----\n# 1. T\nx\n".data⟩] :
          List Section).length then "└── " else "├── ").data ++
        (Nat.toDigits 10 (0+1) ++ '.' :: ' ' :: "T".data)) :=
  ⟨by decide,
    (listing_structure sampleSheets ⟨[⟨"T".data, "# ----\n# 1. T\nx\n".data⟩]⟩
      ⟨[]⟩ ⟨[]⟩ (by decide) (by decide) (by decide)).1,
    (listing_structure sampleSheets ⟨[⟨"T".data, "# ----\n# 1. T\nx\n".data⟩]⟩
      ⟨[]⟩ ⟨[]⟩ (by decide) (by decide) (by decide)).2
      [⟨"T".data, "# ----\n# 1. T\nx\n".data⟩] 0
      ⟨"T".data, "# ----\n# 1. T\nx\n".data⟩ (by decide)⟩

/-! ## Unfolding lemmas for `rustLines'` and line-level facts -/

/-- Unfolding `rustLines'` on a line feed: close the current (empty) line. -/
theorem rustLines'_newline (cs : List Char) :
    rustLines' ('\n' :: cs) = [] :: rustLines' cs := rfl

/-- Unfolding `rustLines'` on a carriage-return/line-feed pair. -/
theorem rustLines'_crlf (cs : List Char) :
    rustLines' ('\r' :: '\n' :: cs) = [] :: rustLines' cs := rfl

/-- Unfolding `rustLines'` on a carriage return not followed by a line feed: the
`'\r'` stays part of the line. -/
theorem rustLines'_cr (cs : List Char) (h : cs.head? ≠ some '\n') :
    rustLines' ('\r' :: cs) = prependLine '\r' (rustLines' cs) := by
  cases cs with
  | nil => rfl
  | cons d cs2 =>
    have hd : d ≠ '\n' := by simpa using h
    simp [rustLines', hd]

/-- Unfolding `rustLines'` on an ordinary character: extend the current line. -/
theorem rustLines'_other (c : Char) (cs : List Char) (h1 : c ≠ '\n')
    (h2 : c ≠ '\r') :
    rustLines' (c :: cs) = prependLine c (rustLines' cs) := by
  simp [rustLines', h1, h2]

/-- The helper `prependLine` preserves freedom from `'\n'`. -/
theorem prependLine_no_nl {c : Char} {L : List (List Char)} (hc : c ≠ '\n')
    (hL : ∀ l ∈ L, '\n' ∉ l) : ∀ l ∈ prependLine c L, '\n' ∉ l := by
  intro l hl
  cases L with
  | nil =>
    simp [prependLine] at hl
    subst hl
    simp [Ne.symm hc]
  | cons h0 t =>
    simp [prependLine] at hl
    rcases hl with rfl | hmem
    · intro hin
      rcases List.mem_cons.mp hin with h | h
      · exact hc h.symm
      · exact hL h0 (List.mem_cons_self _ _) h
    · exact hL l (List.mem_cons_of_mem _ hmem)

/-- No line produced by `rustLines'` contains a line feed. -/
theorem rustLines'_no_nl (cs : List Char) :
    ∀ l ∈ rustLines' cs, '\n' ∉ l := by
  induction cs with
  | nil => intro l hl; simp [rustLines'] at hl
  | cons c cs ih =>
    by_cases h1 : c = '\n'
    · subst h1
      rw [rustLines'_newline]
      intro l hl
      rcases List.mem_cons.mp hl with rfl | h
      · simp
      · exact ih l h
    · by_cases h2 : c = '\r'
      · subst h2
        cases cs with
        | nil =>
          rw [rustLines'_cr _ (by simp)]
          exact prependLine_no_nl (by decide) ih
        | cons d cs2 =>
          by_cases hd : d = '\n'
          · subst hd
            rw [rustLines'_crlf]
            intro l hl
            rcases List.mem_cons.mp hl with rfl | h
            · simp
            · exact ih l
                (by rw [rustLines'_newline]; exact List.mem_cons_of_mem _ h)
          · rw [rustLines'_cr _ (by simp [hd])]
            exact prependLine_no_nl (by decide) ih
      · rw [rustLines'_other c cs h1 h2]
        exact prependLine_no_nl h1 ih

/-! ## Inversion lemmas for the parser -/

/-- Unfolding `splitOnce` after a non-dot head character. -/
theorem splitOnce_cons_of_ne (c : Char) (t : List Char) (hc : c ≠ '.') :
    splitOnce (c :: t) = (splitOnce t).map (fun p => (c :: p.1, p.2)) := by
  cases t with
  | nil => simp [splitOnce]
  | cons d t' =>
    have : ¬(c = '.' ∧ d = ' ') := fun h => hc h.1
    simp only [splitOnce, if_neg this]
    cases splitOnce (d :: t') <;> simp

/-- Stripping leading `"# "` markers does not change the part of a line
after its first `". "`. -/
theorem splitOnce_trimHash_snd :
    ∀ (h : List Char) (a b : List Char),
      splitOnce (trimHash h) = some (a, b) →
      ∃ a2, splitOnce h = some (a2, b)
  | [], a, b => by simp [trimHash]; intro hx; exact ⟨a, hx⟩
  | [c], a, b => by simp [trimHash]; intro hx; exact ⟨a, hx⟩
  | c1 :: c2 :: r, a, b => by
    intro hspl
    by_cases hm : c1 = '#' ∧ c2 = ' '
    · rw [trimHash, if_pos hm] at hspl
      obtain ⟨a2, ha2⟩ := splitOnce_trimHash_snd r a b hspl
      refine ⟨c1 :: c2 :: a2, ?_⟩
      obtain ⟨rfl, rfl⟩ := hm
      rw [splitOnce_cons_of_ne _ _ (by decide),
        splitOnce_cons_of_ne _ _ (by decide), ha2]
      rfl
    · rw [trimHash, if_neg hm] at hspl
      exact ⟨a, hspl⟩

/-- Inversion of a successful `processSection`: where each piece of the
produced section comes from. -/
theorem processSection_inv {ls : List (List Char)} {s e : Nat}
    {sec : Section} (hp : processSection ls s e = some (some sec)) :
    ∃ l0 titleLine l2 num,
      ls[s]? = some l0 ∧ ls[s+1]? = some titleLine ∧
      ls[s+2]? = some l2 ∧
      splitOnce (trimHash titleLine) = some (num, sec.title) ∧
      (parseU32 num).isSome = true ∧
      sec.content = l0 ++ '\n' :: (titleLine ++ '\n' ::
        (l2 ++ '\n' :: joinLines (sliceLines ls (s+3) e))) := by
  unfold processSection at hp
  split at hp
  next => simp at hp
  next titleLine h1 =>
    split at hp
    next => simp at hp
    next num t h2 =>
      split at hp
      next h3 =>
        split at hp
        next l0 l2 h4 h5 =>
          split at hp
          next h6 =>
            have hsec := (Option.some.inj (Option.some.inj hp)).symm
            refine ⟨l0, titleLine, l2, num, h4, h1, h5, ?_, h3, ?_⟩
            · rw [hsec]; exact h2
            · rw [hsec]
          next => simp at hp
        next => simp at hp
      next h3 => simp at hp

/-- Every section in a successful `processAll` run comes from a
successful `processSection` at one of the recorded starts. -/
theorem processAll_mem {ls : List (List Char)} :
    ∀ (starts : List Nat) (secs : List Section),
      processAll ls starts = some secs →
      ∀ sec ∈ secs, ∃ s e, s ∈ starts ∧
        processSection ls s e = some (some sec) := by
  intro starts
  induction starts with
  | nil =>
    intro secs h sec hsec
    simp [processAll] at h
    subst h
    simp at hsec
  | cons s rest ih =>
    intro secs h sec hsec
    unfold processAll at h
    cases h1 : processSection ls s (endIdx ls rest) with
    | none => rw [h1] at h; simp at h
    | some o =>
      cases h2 : processAll ls rest with
      | none => rw [h1, h2] at h; simp at h
      | some secs' =>
        rw [h1, h2] at h
        have hsecs : secs = o.toList ++ secs' := (Option.some.inj h).symm
        subst hsecs
        rcases List.mem_append.mp hsec with hin | hin
        · cases o with
          | none => simp at hin
          | some x =>
            simp at hin
            subst hin
            exact ⟨s, endIdx ls rest, List.mem_cons_self _ _, h1⟩
        · obtain ⟨s', e', hs', hp'⟩ := ih secs' h2 sec hin
          exact ⟨s', e', List.mem_cons_of_mem _ hs', hp'⟩

/-- A recorded start has a delimiter-prefixed line at its index. -/
theorem sectionStarts_delim {ls : List (List Char)} {s : Nat}
    (h : s ∈ sectionStarts ls) :
    ∃ l0, ls[s]? = some l0 ∧ isDelimLine l0 = true := by
  have h' := List.mem_filter.mp h
  have hs : isStartAt ls s = true := h'.2
  unfold isStartAt at hs
  cases e0 : ls[s]? with
  | none => rw [e0] at hs; simp at hs
  | some l0 =>
    cases e1 : ls[s+1]? with
    | none => rw [e0, e1] at hs; simp at hs
    | some l1 =>
      rw [e0, e1] at hs
      rw [Bool.and_eq_true] at hs
      exact ⟨l0, rfl, hs.1⟩

/-- C10: every section produced by `parse_content`, on any input, has a
content whose first line is the opening delimiter line (starting with
`"# ----"`) and whose second line is the header line from which the
section's title was extracted — the title is the part of that header after
its first `". "`. -/
theorem section_content_first_two_lines (s : String) (cs : CheatSheet)
    (hp : parse_content s = some cs) :
    ∀ sec ∈ cs.sections, ∃ l0 titleLine rest,
      sec.content = l0 ++ '\n' :: (titleLine ++ '\n' :: rest) ∧
      isDelimLine l0 = true ∧ '\n' ∉ l0 ∧ '\n' ∉ titleLine ∧
      ∃ num, splitOnce titleLine = some (num, sec.title) := by
  intro sec hsec
  have hall : (processAll (rustLines' s.data)
      (sectionStarts (rustLines' s.data))).map
        (fun secs => CheatSheet.mk secs) = some cs := hp
  cases hrun : processAll (rustLines' s.data)
      (sectionStarts (rustLines' s.data)) with
  | none => rw [hrun] at hall; simp at hall
  | some secs =>
    rw [hrun] at hall
    have hcs : cs = ⟨secs⟩ := (Option.some.inj hall).symm
    subst hcs
    obtain ⟨st, e, hst, hps⟩ := processAll_mem _ secs hrun sec hsec
    obtain ⟨l0, titleLine, l2, num, hg0, hg1, _, hsplit, _, hcontent⟩ :=
      processSection_inv hps
    obtain ⟨l0', hg0', hdelim⟩ := sectionStarts_delim hst
    have hl0 : l0' = l0 := by
      rw [hg0] at hg0'
      exact (Option.some.inj hg0').symm
    rw [hl0] at hdelim
    obtain ⟨num2, hsplit2⟩ := splitOnce_trimHash_snd _ _ _ hsplit
    exact ⟨l0, titleLine,
      l2 ++ '\n' :: joinLines (sliceLines (rustLines' s.data) (st+3) e),
      hcontent, hdelim,
      rustLines'_no_nl s.data l0 (List.getElem?_mem hg0),
      rustLines'_no_nl s.data titleLine (List.getElem?_mem hg1),
      num2, hsplit2⟩

/-- C10 witness: the concrete example document and its one section. -/
theorem section_content_first_two_lines_witness :
    (parse_content "# ----\n# 1. Variables\n# ----\nx = 5  # comment" =
        some ⟨[⟨"Variables".data,
          "# ----\n# 1. Variables\n# ----\nx = 5  # comment".data⟩]⟩ ∧
      (⟨"Variables".data,
          "# ----\n# 1. Variables\n# ----\nx = 5  # comment".data⟩ :
        Section) ∈
        [(⟨"Variables".data,
          "# ----\n# 1. Variables\n# ----\nx = 5  # comment".data⟩ :
          Section)]) ∧
    ∃ l0 titleLine rest,
      (⟨"Variables".data,
        "# ----\n# 1. Variables\n# ----\nx = 5  # comment".data⟩ :
        Section).content = l0 ++ '\n' :: (titleLine ++ '\n' :: rest) ∧
      isDelimLine l0 = true ∧ '\n' ∉ l0 ∧ '\n' ∉ titleLine ∧
      ∃ num, splitOnce titleLine =
        some (num, (⟨"Variables".data,
          "# ----\n# 1. Variables\n# ----\nx = 5  # comment".data⟩ :
          Section).title) :=
  ⟨by decide,
    section_content_first_two_lines
      "# ----\n# 1. Variables\n# ----\nx = 5  # comment"
      ⟨[⟨"Variables".data,
        "# ----\n# 1. Variables\n# ----\nx = 5  # comment".data⟩]⟩
      (by decide) _ (by decide)⟩

/-! ## Round-trip machinery: joining and re-splitting lines -/

/-- Unfolding `joinLines` on a list with at least two lines. -/
theorem joinLines_cons_cons (l m : List Char) (ms : List (List Char)) :
    joinLines (l :: m :: ms) = l ++ '\n' :: joinLines (m :: ms) := rfl

/-- The join `joinLines` distributes over append (for nonempty parts), inserting
one separator at the seam. -/
theorem joinLines_append (a b : List (List Char)) (ha : a ≠ []) (hb : b ≠ []) :
    joinLines (a ++ b) = joinLines a ++ '\n' :: joinLines b := by
  induction a with
  | nil => exact absurd rfl ha
  | cons x a' ih =>
    cases a' with
    | nil =>
      cases b with
      | nil => exact absurd rfl hb
      | cons y b' => simp [joinLines_cons_cons, joinLines]
    | cons z a'' =>
      have : joinLines ((x :: z :: a'') ++ b) =
          x ++ '\n' :: joinLines ((z :: a'') ++ b) := by
        simp only [List.cons_append]
        exact joinLines_cons_cons _ _ _
      rw [this, ih (by simp), joinLines_cons_cons]
      simp

/-- A single clean nonempty line splits back into itself. -/
theorem rustLines'_single (l : List Char) (h1 : l ≠ []) (h2 : '\n' ∉ l)
    (h3 : '\r' ∉ l) : rustLines' l = [l] := by
  induction l with
  | nil => exact absurd rfl h1
  | cons c l' ih =>
    have hc2 : c ≠ '\n' := fun h => h2 (h ▸ List.mem_cons_self _ _)
    have hc3 : c ≠ '\r' := fun h => h3 (h ▸ List.mem_cons_self _ _)
    rw [rustLines'_other c l' hc2 hc3]
    cases l' with
    | nil => rfl
    | cons d l'' =>
      rw [ih (by simp) (fun h => h2 (List.mem_cons_of_mem _ h))
        (fun h => h3 (List.mem_cons_of_mem _ h))]
      rfl

/-- Splitting a clean line followed by a separator and a remainder. -/
theorem rustLines'_line_append (l t : List Char) (h2 : '\n' ∉ l)
    (h3 : '\r' ∉ l) :
    rustLines' (l ++ '\n' :: t) = l :: rustLines' t := by
  induction l with
  | nil => simp [rustLines'_newline]
  | cons c l' ih =>
    have hc2 : c ≠ '\n' := fun h => h2 (h ▸ List.mem_cons_self _ _)
    have hc3 : c ≠ '\r' := fun h => h3 (h ▸ List.mem_cons_self _ _)
    rw [List.cons_append, rustLines'_other c _ hc2 hc3,
      ih (fun h => h2 (List.mem_cons_of_mem _ h))
        (fun h => h3 (List.mem_cons_of_mem _ h))]
    rfl

/-- Splitting with `rustLines'` inverts `joinLines` on clean lines whose last line is
nonempty. -/
theorem rustLines'_joinLines (ls : List (List Char)) (hne : ls ≠ [])
    (hclean : ∀ l ∈ ls, '\n' ∉ l ∧ '\r' ∉ l)
    (hlast : ls.getLast? ≠ some []) :
    rustLines' (joinLines ls) = ls := by
  induction ls with
  | nil => exact absurd rfl hne
  | cons l ls' ih =>
    cases ls' with
    | nil =>
      have hl : l ≠ [] := by
        intro h
        exact hlast (by simp [h])
      have := hclean l (List.mem_cons_self _ _)
      simpa [joinLines] using rustLines'_single l hl this.1 this.2
    | cons m ms =>
      rw [joinLines_cons_cons]
      have hcl := hclean l (List.mem_cons_self _ _)
      rw [rustLines'_line_append l _ hcl.1 hcl.2]
      rw [ih (by simp)
        (fun x hx => hclean x (List.mem_cons_of_mem _ hx))
        (by simpa using hlast)]

/-! ## Character-level facts about well-formed blocks -/

/-- A successfully parsed `u32` string is nonempty and contains only a
sign or digits; in particular none of the structural characters. -/
theorem parseU32_char_facts (ns : List Char)
    (h : (parseU32 ns).isSome = true) :
    ns ≠ [] ∧ ∀ c ∈ ns,
      c ≠ '\n' ∧ c ≠ '\r' ∧ c ≠ '#' ∧ c ≠ '-' ∧ c ≠ '.' := by
  have hcore : ∀ t : List Char, (parseUnsignedCore 4294967296 t).isSome = true →
      t ≠ [] ∧ ∀ c ∈ t, c.isDigit = true := by
    intro t ht
    unfold parseUnsignedCore at ht
    split at ht
    · next hcond => exact ⟨hcond.1, fun c hc => List.all_eq_true.mp hcond.2 c hc⟩
    · simp at ht
  have hdig : ∀ c : Char, c.isDigit = true →
      c ≠ '\n' ∧ c ≠ '\r' ∧ c ≠ '#' ∧ c ≠ '-' ∧ c ≠ '.' := by
    intro c hc
    refine ⟨?_, ?_, ?_, ?_, ?_⟩ <;> (rintro rfl; revert hc; decide)
  unfold parseU32 at h
  split at h
  next r =>
    obtain ⟨hr, hall⟩ := hcore r h
    refine ⟨by simp, ?_⟩
    intro c hc
    rcases List.mem_cons.mp hc with rfl | hc'
    · refine ⟨?_, ?_, ?_, ?_, ?_⟩ <;> decide
    · exact hdig c (hall c hc')
  next =>
    obtain ⟨hns, hall⟩ := hcore ns h
    exact ⟨hns, fun c hc => hdig c (hall c hc)⟩

/-- Unfolding `trimHash`: it strips one `"# "` marker. -/
theorem trimHash_step (r : List Char) : trimHash ('#' :: ' ' :: r) = trimHash r := by
  simp [trimHash]

/-- Unfolding `trimHash`: it fixes a list not starting with `'#'`. -/
theorem trimHash_of_ne (c : Char) (t : List Char) (hc : c ≠ '#') :
    trimHash (c :: t) = c :: t := by
  cases t with
  | nil => rfl
  | cons d t' =>
    have : ¬(c = '#' ∧ d = ' ') := fun h => hc h.1
    simp [trimHash, this]

/-- The split `splitOnce` cuts at the seam when the part before it is dot-free. -/
theorem splitOnce_before_dot (xs ys : List Char) (h : '.' ∉ xs) :
    splitOnce (xs ++ '.' :: ' ' :: ys) = some (xs, ys) := by
  induction xs with
  | nil => simp [splitOnce]
  | cons c xs' ih =>
    have hc : c ≠ '.' := fun hh => h (hh ▸ List.mem_cons_self _ _)
    rw [List.cons_append, splitOnce_cons_of_ne c _ hc,
      ih (fun hh => h (List.mem_cons_of_mem _ hh))]
    rfl

/-- The header of a well-formed block trims to `num ++ ". " ++ title`. -/
theorem trimHash_headerOf (b : Block) (hb : (parseU32 b.numStr).isSome = true) :
    trimHash (headerOf b) = b.numStr ++ '.' :: ' ' :: b.title := by
  unfold headerOf
  rw [trimHash_step]
  obtain ⟨hne, hfacts⟩ := parseU32_char_facts _ hb
  cases hns : b.numStr with
  | nil => exact absurd hns hne
  | cons c ns' =>
    rw [List.cons_append]
    exact trimHash_of_ne c _
      ((hfacts c (by rw [hns]; exact List.mem_cons_self _ _)).2.2.1)

/-- The header of a well-formed block splits into its number and title. -/
theorem splitOnce_headerOf (b : Block) (hb : (parseU32 b.numStr).isSome = true) :
    splitOnce (trimHash (headerOf b)) = some (b.numStr, b.title) := by
  rw [trimHash_headerOf b hb]
  obtain ⟨_, hfacts⟩ := parseU32_char_facts _ hb
  exact splitOnce_before_dot _ _ (fun hdot => (hfacts '.' hdot).2.2.2.2 rfl)

/-- The header of a well-formed block passes the header-line test. -/
theorem isHeaderLine_headerOf (b : Block)
    (hb : (parseU32 b.numStr).isSome = true) :
    isHeaderLine (headerOf b) = true := by
  unfold isHeaderLine
  rw [splitOnce_headerOf b hb]
  unfold headerOf
  simp [hashMarker, List.isPrefixOf]

/-- The header of a well-formed block is not a delimiter line. -/
theorem isDelimLine_headerOf (b : Block)
    (hb : (parseU32 b.numStr).isSome = true) :
    isDelimLine (headerOf b) = false := by
  obtain ⟨hne, hfacts⟩ := parseU32_char_facts _ hb
  unfold isDelimLine headerOf delimMarker
  cases hns : b.numStr with
  | nil => exact absurd hns hne
  | cons c ns' =>
    have hc : c ≠ '-' :=
      (hfacts c (by rw [hns]; exact List.mem_cons_self _ _)).2.2.2.1
    simp [List.isPrefixOf, Ne.symm hc]

/-- The header of a well-formed block is a clean line. -/
theorem cleanLine_headerOf (b : Block) (hb : (parseU32 b.numStr).isSome = true)
    (ht : cleanLine b.title) : cleanLine (headerOf b) := by
  obtain ⟨_, hfacts⟩ := parseU32_char_facts _ hb
  unfold headerOf
  constructor
  · intro hmem
    rcases List.mem_cons.mp hmem with h | hmem; · exact absurd h.symm (by decide)
    rcases List.mem_cons.mp hmem with h | hmem; · exact absurd h.symm (by decide)
    rcases List.mem_append.mp hmem with h | hmem
    · exact (hfacts _ h).1 rfl
    rcases List.mem_cons.mp hmem with h | hmem; · exact absurd h.symm (by decide)
    rcases List.mem_cons.mp hmem with h | hmem; · exact absurd h.symm (by decide)
    exact ht.1 hmem
  · intro hmem
    rcases List.mem_cons.mp hmem with h | hmem; · exact absurd h.symm (by decide)
    rcases List.mem_cons.mp hmem with h | hmem; · exact absurd h.symm (by decide)
    rcases List.mem_append.mp hmem with h | hmem
    · exact (hfacts _ h).2.1 rfl
    rcases List.mem_cons.mp hmem with h | hmem; · exact absurd h.symm (by decide)
    rcases List.mem_cons.mp hmem with h | hmem; · exact absurd h.symm (by decide)
    exact ht.2 hmem

/-! ## Document structure facts -/

/-- A block contributes `3 + |body|` lines. -/
theorem blockLines_length (b : Block) :
    (blockLines b).length = 3 + b.body.length := by
  simp [blockLines]
  omega

/-- Block lines are never empty. -/
theorem blockLines_ne_nil (b : Block) : blockLines b ≠ [] := by
  simp [blockLines]

/-- A document over a nonempty block list has lines. -/
theorem docLines_ne_nil (bs : List Block) (h : bs ≠ []) :
    docLines bs ≠ [] := by
  cases bs with
  | nil => exact absurd rfl h
  | cons b rest =>
    show blockLines b ++ docLines rest ≠ []
    simp [blockLines]

/-- All lines of a well-formed document are clean. -/
theorem docLines_clean (bs : List Block) (hwf : ∀ b ∈ bs, WFBlock b) :
    ∀ l ∈ docLines bs, '\n' ∉ l ∧ '\r' ∉ l := by
  induction bs with
  | nil => intro l hl; simp [docLines] at hl
  | cons b rest ih =>
    intro l hl
    obtain ⟨hnum, htitle, _, hbody, _⟩ := hwf b (List.mem_cons_self _ _)
    rcases List.mem_append.mp hl with hin | hin
    · unfold blockLines at hin
      rcases List.mem_cons.mp hin with rfl | hin
      · exact ⟨by decide, by decide⟩
      rcases List.mem_cons.mp hin with rfl | hin
      · exact cleanLine_headerOf b hnum htitle
      rcases List.mem_cons.mp hin with rfl | hin
      · exact ⟨by decide, by decide⟩
      · exact (hbody l hin).1
    · exact ih (fun b' hb' => hwf b' (List.mem_cons_of_mem _ hb')) l hin

/-- The last line of a well-formed document is the last body line of its
last block. -/
theorem docLines_last (bs : List Block) (b : Block)
    (hbs : bs.getLast? = some b) (hwf : ∀ b' ∈ bs, WFBlock b') :
    (docLines bs).getLast? = b.body.getLast? := by
  induction bs with
  | nil => simp at hbs
  | cons b0 rest ih =>
    cases rest with
    | nil =>
      have hb0 : b0 = b := by simpa using hbs
      subst hb0
      show (blockLines b0 ++ docLines []).getLast? = _
      have hbody : b0.body ≠ [] :=
        (hwf b0 (List.mem_cons_self _ _)).2.2.1
      have : (blockLines b0).getLast? = b0.body.getLast? := by
        unfold blockLines
        cases hb : b0.body with
        | nil => exact absurd hb hbody
        | cons c body' => simp
      simp only [docLines, List.append_nil]
      exact this
    | cons b1 rest' =>
      have hbs' : (b1 :: rest').getLast? = some b := by
        simpa using hbs
      have ihr := ih hbs' (fun b' hb' => hwf b' (List.mem_cons_of_mem _ hb'))
      show (blockLines b0 ++ docLines (b1 :: rest')).getLast? = _
      rw [List.getLast?_append, ihr]
      have hbody1 : b1.body ≠ [] :=
        (hwf b1 (List.mem_cons_of_mem _ (List.mem_cons_self _ _))).2.2.1
      cases hb : b.body with
      | nil =>
        have hbne : docLines (b1 :: rest') ≠ [] :=
          docLines_ne_nil _ (by simp)
        rw [hb] at ihr
        simp at ihr
        exact absurd (List.getLast?_isSome.mpr hbne) (by simp [ihr])
      | cons c body' =>
        have hs : (c :: body').getLast?.isSome :=
          List.getLast?_isSome.mpr (by simp)
        obtain ⟨y, hy⟩ := Option.isSome_iff_exists.mp hs
        rw [hy]
        rfl

/-- Elements of `startIndicesAux off bs` are at least `off`. -/
theorem startIndicesAux_le (bs : List Block) :
    ∀ off, ∀ x ∈ startIndicesAux off bs, off ≤ x := by
  induction bs with
  | nil => intro off x hx; simp [startIndicesAux] at hx
  | cons b rest ih =>
    intro off x hx
    rcases List.mem_cons.mp hx with rfl | hx
    · exact Nat.le_refl _
    · exact Nat.le_trans (Nat.le_add_right _ _) (ih _ x hx)

/-- Shifting the offset of `startIndicesAux` shifts all indices. -/
theorem startIndicesAux_shift (bs : List Block) :
    ∀ d off, startIndicesAux (d + off) bs =
      (startIndicesAux off bs).map (fun x => d + x) := by
  induction bs with
  | nil => intro d off; simp [startIndicesAux]
  | cons b rest ih =>
    intro d off
    show (d + off) :: startIndicesAux (d + off + (blockLines b).length) rest = _
    rw [show d + off + (blockLines b).length =
      d + (off + (blockLines b).length) by omega]
    rw [ih d (off + (blockLines b).length)]
    simp [startIndicesAux]

/-- The indices `startIndicesAux` are strictly increasing. -/
theorem startIndicesAux_sorted (bs : List Block) :
    ∀ off, List.Pairwise (· < ·) (startIndicesAux off bs) := by
  induction bs with
  | nil => intro off; simp [startIndicesAux]
  | cons b rest ih =>
    intro off
    refine List.pairwise_cons.mpr ⟨?_, ih _⟩
    intro x hx
    have h1 := startIndicesAux_le rest _ x hx
    have h2 : 0 < (blockLines b).length := by
      rw [blockLines_length]; omega
    omega

/-! ## `isStartAt` helpers -/

/-- Reading `isStartAt` off the two lines it inspects. -/
theorem isStartAt_eq {ls : List (List Char)} {i : Nat} {l0 l1 : List Char}
    (h0 : ls[i]? = some l0) (h1 : ls[i+1]? = some l1) :
    isStartAt ls i = (isDelimLine l0 && isHeaderLine l1) := by
  unfold isStartAt
  rw [h0, h1]

/-- `isStartAt` fails when the first inspected line is no delimiter. -/
theorem isStartAt_false_of_fst {ls : List (List Char)} {i : Nat}
    {l0 : List Char} (h0 : ls[i]? = some l0)
    (hd : isDelimLine l0 = false) : isStartAt ls i = false := by
  unfold isStartAt
  rw [h0]
  cases ls[i+1]? <;> simp [hd]

/-- `isStartAt` fails when the second inspected line is no header. -/
theorem isStartAt_false_of_snd {ls : List (List Char)} {i : Nat}
    {l1 : List Char} (h1 : ls[i+1]? = some l1)
    (hh : isHeaderLine l1 = false) : isStartAt ls i = false := by
  unfold isStartAt
  rw [h1]
  cases ls[i]? <;> simp [hh]

/-- `isStartAt` fails past the end of the line list. -/
theorem isStartAt_false_of_none {ls : List (List Char)} {i : Nat}
    (h1 : ls[i+1]? = none) : isStartAt ls i = false := by
  unfold isStartAt
  rw [h1]
  cases ls[i]? <;> rfl

/-- `isStartAt` only looks at indices relative to a dropped prefix. -/
theorem isStartAt_append_right (xs ys : List (List Char)) (j : Nat) :
    isStartAt (xs ++ ys) (xs.length + j) = isStartAt ys j := by
  unfold isStartAt
  rw [List.getElem?_append_right (by omega),
    show xs.length + j + 1 = xs.length + (j + 1) by omega,
    List.getElem?_append_right (by omega)]
  rw [Nat.add_sub_cancel_left, Nat.add_sub_cancel_left]

/-- The scan over a well-formed document records exactly the block
openings. -/
theorem isStartAt_docLines :
    ∀ (bs : List Block), (∀ b ∈ bs, WFBlock b) → ∀ i,
      (isStartAt (docLines bs) i = true ↔ i ∈ startIndicesAux 0 bs) := by
  intro bs
  induction bs with
  | nil =>
    intro _ i
    have hf : isStartAt (docLines ([] : List Block)) i = false :=
      isStartAt_false_of_none (by simp [docLines])
    rw [hf]
    simp [startIndicesAux]
  | cons b rest ih =>
    intro hwf i
    obtain ⟨hnum, htitle, hbodyne, hbodyP, hheadP⟩ :=
      hwf b (List.mem_cons_self _ _)
    have hwfr : ∀ b' ∈ rest, WFBlock b' :=
      fun b' hb' => hwf b' (List.mem_cons_of_mem _ hb')
    have hbl : 1 ≤ b.body.length := by
      cases hbb : b.body with
      | nil => exact absurd hbb hbodyne
      | cons _ _ => simp
    have hL4 : 4 ≤ (blockLines b).length := by
      rw [blockLines_length]; omega
    have hdoc : docLines (b :: rest) =
        delimMarker :: headerOf b :: delimMarker ::
          (b.body ++ docLines rest) := rfl
    have hrhs : startIndicesAux 0 (b :: rest) =
        0 :: (startIndicesAux 0 rest).map
          (fun x => (blockLines b).length + x) := by
      show (0 : Nat) ::
        startIndicesAux (0 + (blockLines b).length) rest = _
      rw [show 0 + (blockLines b).length = (blockLines b).length + 0 by omega,
        startIndicesAux_shift]
    rw [hrhs]
    rcases Nat.lt_or_ge i (blockLines b).length with hiL | hiL
    · have hnotmem : i ∉ (startIndicesAux 0 rest).map
          (fun x => (blockLines b).length + x) := by
        intro hmem
        obtain ⟨x, _, hx⟩ := List.mem_map.mp hmem
        omega
      by_cases h0 : i = 0
      · subst h0
        have hs0 : (docLines (b :: rest))[0]? = some delimMarker := rfl
        have hs1 : (docLines (b :: rest))[0+1]? = some (headerOf b) := rfl
        rw [isStartAt_eq hs0 hs1]
        have hdm : isDelimLine delimMarker = true := by decide
        simp [hdm, isHeaderLine_headerOf b hnum]
      by_cases h1 : i = 1
      · subst h1
        have hs1 : (docLines (b :: rest))[1]? = some (headerOf b) := rfl
        rw [isStartAt_false_of_fst hs1 (isDelimLine_headerOf b hnum)]
        simp [hnotmem]
      by_cases h2 : i = 2
      · subst h2
        cases hbb : b.body with
        | nil => exact absurd hbb hbodyne
        | cons c body' =>
          have hs3 : (docLines (b :: rest))[2+1]? = some c := by
            rw [hdoc, hbb]
            simp
          have hhc : isHeaderLine c = false := by
            apply hheadP
            rw [hbb]
            simp
          rw [isStartAt_false_of_snd hs3 hhc]
          simp [hnotmem]
      · have hj : ∃ j, i = j + 3 := ⟨i - 3, by omega⟩
        obtain ⟨j, rfl⟩ := hj
        have hjb : j < b.body.length := by
          rw [blockLines_length] at hiL; omega
        have hj3 : (docLines (b :: rest))[j+3]? =
            (b.body ++ docLines rest)[j]? := by
          rw [hdoc]
          have e1 : (delimMarker :: headerOf b :: delimMarker ::
              (b.body ++ docLines rest))[j+3]? =
              (headerOf b :: delimMarker ::
                (b.body ++ docLines rest))[j+2]? := List.getElem?_cons_succ
          have e2 : (headerOf b :: delimMarker ::
              (b.body ++ docLines rest))[j+2]? =
              (delimMarker :: (b.body ++ docLines rest))[j+1]? :=
            List.getElem?_cons_succ
          have e3 : (delimMarker :: (b.body ++ docLines rest))[j+1]? =
              (b.body ++ docLines rest)[j]? := List.getElem?_cons_succ
          rw [e1, e2, e3]
        have hsj : (docLines (b :: rest))[j+3]? = some (b.body[j]) := by
          rw [hj3, List.getElem?_append_left hjb]
          exact List.getElem?_eq_getElem hjb
        have hdl : isDelimLine (b.body[j]) = false :=
          (hbodyP _ (List.getElem_mem ..)).2
        rw [isStartAt_false_of_fst hsj hdl]
        simp [hnotmem]
    · obtain ⟨j, rfl⟩ : ∃ j, i = (blockLines b).length + j :=
        ⟨i - (blockLines b).length, by omega⟩
      have hshift : isStartAt (docLines (b :: rest))
          ((blockLines b).length + j) = isStartAt (docLines rest) j := by
        show isStartAt (blockLines b ++ docLines rest) _ = _
        exact isStartAt_append_right _ _ j
      rw [hshift, ih hwfr j]
      constructor
      · intro h
        exact List.mem_cons_of_mem _ (List.mem_map.mpr ⟨j, h, rfl⟩)
      · intro h
        rcases List.mem_cons.mp h with heq | hmem
        · omega
        · obtain ⟨x, hx, hxe⟩ := List.mem_map.mp hmem
          have : x = j := by omega
          subst this
          exact hx

/-- On a well-formed document the recorded starts are exactly the block
openings. -/
theorem sectionStarts_docLines (bs : List Block)
    (hwf : ∀ b ∈ bs, WFBlock b) :
    sectionStarts (docLines bs) = startIndicesAux 0 bs := by
  have hmem : ∀ i, i ∈ sectionStarts (docLines bs) ↔
      i ∈ startIndicesAux 0 bs := by
    intro i
    rw [← isStartAt_docLines bs hwf i]
    constructor
    · intro h
      exact (List.mem_filter.mp h).2
    · intro h
      apply List.mem_filter.mpr
      refine ⟨List.mem_range.mpr ?_, h⟩
      unfold isStartAt at h
      cases e0 : (docLines bs)[i]? with
      | none => rw [e0] at h; simp at h
      | some l0 => exact (List.getElem?_eq_some_iff.mp e0).1
  have hs1 : List.Sorted (· < ·) (sectionStarts (docLines bs)) :=
    (List.sorted_lt_range _).filter _
  have hs2 : List.Sorted (· < ·) (startIndicesAux 0 bs) :=
    startIndicesAux_sorted bs 0
  have hn1 : (sectionStarts (docLines bs)).Nodup :=
    hs1.imp (fun h => Nat.ne_of_lt h)
  have hn2 : (startIndicesAux 0 bs).Nodup :=
    hs2.imp (fun h => Nat.ne_of_lt h)
  exact List.eq_of_perm_of_sorted
    ((List.perm_ext_iff_of_nodup hn1 hn2).mpr hmem) hs1 hs2

/-! ## Computing the processing loop on a well-formed document -/

/-- Evaluation of `processSection` only looks at indices relative to a dropped
prefix. -/
theorem processSection_shift (xs ys : List (List Char)) (s e : Nat) :
    processSection (xs ++ ys) (xs.length + s) (xs.length + e) =
      processSection ys s e := by
  have h1 : (xs ++ ys)[xs.length + s + 1]? = ys[s+1]? := by
    rw [show xs.length + s + 1 = xs.length + (s+1) by omega,
      List.getElem?_append_right (by omega), Nat.add_sub_cancel_left]
  have h0 : (xs ++ ys)[xs.length + s]? = ys[s]? := by
    rw [List.getElem?_append_right (by omega), Nat.add_sub_cancel_left]
  have h2 : (xs ++ ys)[xs.length + s + 2]? = ys[s+2]? := by
    rw [show xs.length + s + 2 = xs.length + (s+2) by omega,
      List.getElem?_append_right (by omega), Nat.add_sub_cancel_left]
  have hsl : sliceLines (xs ++ ys) (xs.length + s + 3) (xs.length + e) =
      sliceLines ys (s+3) e := by
    unfold sliceLines
    rw [show xs.length + s + 3 = xs.length + (s+3) by omega,
      ← List.drop_drop, List.drop_left]
    congr 1
    omega
  unfold processSection
  rw [h1]
  cases ys[s+1]? with
  | none => rfl
  | some titleLine =>
    dsimp only
    cases splitOnce (trimHash titleLine) with
    | none => rfl
    | some p =>
      obtain ⟨num, t⟩ := p
      dsimp only
      cases hps : (parseU32 num).isSome with
      | false => simp [hps]
      | true =>
        rw [if_pos (Eq.refl true), if_pos (Eq.refl true), h0, h2]
        cases ys[s]? with
        | none => rfl
        | some l0 =>
          cases ys[s+2]? with
          | none => rfl
          | some l2 =>
            dsimp only
            by_cases hc : s + 3 ≤ e ∧ e ≤ ys.length
            · rw [if_pos hc,
                if_pos (show xs.length + s + 3 ≤ xs.length + e ∧
                  xs.length + e ≤ (xs ++ ys).length by
                  simp [List.length_append]; omega),
                hsl]
            · rw [if_neg hc,
                if_neg (show ¬(xs.length + s + 3 ≤ xs.length + e ∧
                  xs.length + e ≤ (xs ++ ys).length) by
                  simp [List.length_append]; omega)]

/-- The bound `endIdx` only looks at indices relative to a dropped prefix. -/
theorem endIdx_shift (xs ys : List (List Char)) (starts : List Nat) :
    endIdx (xs ++ ys) (starts.map (fun x => xs.length + x)) =
      xs.length + endIdx ys starts := by
  cases starts with
  | nil => simp [endIdx, List.length_append]
  | cons s2 r => simp [endIdx]

/-- Evaluation of `processAll` only looks at indices relative to a dropped prefix. -/
theorem processAll_shift (xs ys : List (List Char)) :
    ∀ starts : List Nat,
      processAll (xs ++ ys) (starts.map (fun x => xs.length + x)) =
        processAll ys starts := by
  intro starts
  induction starts with
  | nil => rfl
  | cons s rest ih =>
    simp only [List.map_cons]
    unfold processAll
    rw [endIdx_shift, processSection_shift, ih]

/-- Running `processSection` on the opening of a well-formed block reproduces the
block verbatim. -/
theorem processSection_head (b : Block) (tail : List (List Char))
    (hnum : (parseU32 b.numStr).isSome = true) (hbody : b.body ≠ []) :
    processSection (blockLines b ++ tail) 0 (blockLines b).length =
      some (some ⟨b.title, joinLines (blockLines b)⟩) := by
  obtain ⟨c, body', hbb⟩ : ∃ c body', b.body = c :: body' := by
    cases hbbody : b.body with
    | nil => exact absurd hbbody hbody
    | cons c body' => exact ⟨c, body', rfl⟩
  have hs1 : (blockLines b ++ tail)[0+1]? = some (headerOf b) := rfl
  have hs0 : (blockLines b ++ tail)[0]? = some delimMarker := rfl
  have hs2 : (blockLines b ++ tail)[0+2]? = some delimMarker := by
    simp [blockLines]
  have hslice : sliceLines (blockLines b ++ tail) (0+3)
      (blockLines b).length = b.body := by
    unfold sliceLines
    rw [show (blockLines b ++ tail) =
      delimMarker :: headerOf b :: delimMarker :: (b.body ++ tail) from rfl]
    rw [show (0+3 : Nat) = 3 from rfl]
    rw [show List.drop 3 (delimMarker :: headerOf b :: delimMarker ::
      (b.body ++ tail)) = b.body ++ tail from rfl]
    rw [blockLines_length, show 3 + b.body.length - 3 = b.body.length by omega]
    exact List.take_left' rfl
  have hjoin : joinLines (blockLines b) =
      delimMarker ++ '\n' :: (headerOf b ++ '\n' ::
        (delimMarker ++ '\n' :: joinLines b.body)) := by
    unfold blockLines
    rw [hbb, joinLines_cons_cons, joinLines_cons_cons, joinLines_cons_cons]
  unfold processSection
  rw [hs1]
  dsimp only
  rw [splitOnce_headerOf b hnum]
  dsimp only
  rw [if_pos hnum, hs0, hs2]
  dsimp only
  rw [if_pos (show 0 + 3 ≤ (blockLines b).length ∧
      (blockLines b).length ≤ (blockLines b ++ tail).length by
      rw [blockLines_length, List.length_append, blockLines_length]
      omega),
    hslice, hjoin]

/-- Unfolding `startIndicesAux` at offset zero on a cons. -/
theorem startIndicesAux_zero_cons (b : Block) (rest : List Block) :
    startIndicesAux 0 (b :: rest) =
      0 :: (startIndicesAux 0 rest).map
        (fun x => (blockLines b).length + x) := by
  show (0 : Nat) :: startIndicesAux (0 + (blockLines b).length) rest = _
  rw [show 0 + (blockLines b).length = (blockLines b).length + 0 by omega,
    startIndicesAux_shift]

/-- The processing loop on a well-formed document yields one section per
block, in document order, each reproducing its block's lines. -/
theorem processAll_docLines :
    ∀ (bs : List Block), (∀ b ∈ bs, WFBlock b) →
      processAll (docLines bs) (startIndicesAux 0 bs) =
        some (bs.map (fun b =>
          ⟨b.title, joinLines (blockLines b)⟩)) := by
  intro bs
  induction bs with
  | nil => intro _; rfl
  | cons b rest ih =>
    intro hwf
    obtain ⟨hnum, _, hbodyne, _, _⟩ := hwf b (List.mem_cons_self _ _)
    have hwfr : ∀ b' ∈ rest, WFBlock b' :=
      fun b' hb' => hwf b' (List.mem_cons_of_mem _ hb')
    rw [startIndicesAux_zero_cons]
    unfold processAll
    have hend : endIdx (docLines (b :: rest))
        ((startIndicesAux 0 rest).map
          (fun x => (blockLines b).length + x)) =
        (blockLines b).length := by
      cases rest with
      | nil =>
        show endIdx (docLines [b]) [] = _
        show (docLines [b]).length = _
        show (blockLines b ++ docLines []).length = _
        simp [docLines]
      | cons b2 rest' =>
        show endIdx _ ((startIndicesAux 0 (b2 :: rest')).map _) = _
        rw [show startIndicesAux 0 (b2 :: rest') =
          0 :: startIndicesAux (0 + (blockLines b2).length) rest' from rfl]
        show (blockLines b).length + 0 = _
        omega
    rw [hend,
      show docLines (b :: rest) = blockLines b ++ docLines rest from rfl,
      processSection_head b (docLines rest) hnum hbodyne,
      processAll_shift (blockLines b) (docLines rest) (startIndicesAux 0 rest),
      ih hwfr]
    rfl

/-- Joining the per-block line joins equals joining all document lines. -/
theorem joinLines_map_blockLines :
    ∀ bs : List Block,
      joinLines (bs.map (fun b => joinLines (blockLines b))) =
        joinLines (docLines bs) := by
  intro bs
  induction bs with
  | nil => rfl
  | cons b rest ih =>
    cases rest with
    | nil =>
      show joinLines [joinLines (blockLines b)] =
        joinLines (blockLines b ++ docLines [])
      rw [show docLines ([] : List Block) = [] from rfl, List.append_nil]
      rfl
    | cons b2 rest' =>
      show joinLines (joinLines (blockLines b) ::
          (b2 :: rest').map (fun b => joinLines (blockLines b))) =
        joinLines (blockLines b ++ docLines (b2 :: rest'))
      rw [joinLines_append _ _ (blockLines_ne_nil b)
        (docLines_ne_nil _ (by simp)), ← ih,
        show (b2 :: rest').map (fun b => joinLines (blockLines b)) =
          joinLines (blockLines b2) ::
            rest'.map (fun b => joinLines (blockLines b)) from rfl,
        joinLines_cons_cons]

/-- C2 (amended): for a document composed of N well-formed section blocks,
`parse_content` yields exactly N sections in document order, each titled
by its block, and joining their contents with single line breaks — rather
than plainly concatenating them — reproduces the document text
byte-for-byte. -/
theorem parse_content_roundtrip (bs : List Block) (hne : bs ≠ [])
    (hwf : ∀ b ∈ bs, WFBlock b)
    (hlast : ∀ b ∈ bs.getLast?.toList, b.body.getLast? ≠ some []) :
    ∃ secs, parse_content (String.mk (docText bs)) = some ⟨secs⟩ ∧
      secs.length = bs.length ∧
      secs.map Section.title = bs.map Block.title ∧
      joinLines (secs.map Section.content) = docText bs := by
  have hlastd : (docLines bs).getLast? ≠ some [] := by
    obtain ⟨b, hb⟩ : ∃ b, bs.getLast? = some b :=
      Option.isSome_iff_exists.mp (List.getLast?_isSome.mpr hne)
    rw [docLines_last bs b hb hwf]
    exact hlast b (by rw [hb]; simp)
  have hlines : rustLines' (docText bs) = docLines bs :=
    rustLines'_joinLines _ (docLines_ne_nil bs hne)
      (docLines_clean bs hwf) hlastd
  refine ⟨bs.map (fun b => ⟨b.title, joinLines (blockLines b)⟩),
    ?_, by simp, by simp, ?_⟩
  · show (processAll (rustLines' (String.mk (docText bs)).data)
        (sectionStarts (rustLines' (String.mk (docText bs)).data))).map
        (fun secs => CheatSheet.mk secs) = _
    rw [show (String.mk (docText bs)).data = docText bs from rfl,
      hlines, sectionStarts_docLines bs hwf, processAll_docLines bs hwf]
    rfl
  · have hmm : (bs.map (fun b =>
        (⟨b.title, joinLines (blockLines b)⟩ : Section))).map
          Section.content = bs.map (fun b => joinLines (blockLines b)) := by
      simp
    rw [hmm]
    exact joinLines_map_blockLines bs

/-- C2 witness: a one-block document `"# ----\n# 1. A\n# ----\nx"`. -/
theorem parse_content_roundtrip_witness :
    (([⟨['1'], ['A'], [['x']]⟩] : List Block) ≠ [] ∧
      (∀ b ∈ ([⟨['1'], ['A'], [['x']]⟩] : List Block), WFBlock b) ∧
      (∀ b ∈ ([⟨['1'], ['A'], [['x']]⟩] : List Block).getLast?.toList,
        b.body.getLast? ≠ some [])) ∧
    ∃ secs,
      parse_content (String.mk (docText [⟨['1'], ['A'], [['x']]⟩])) =
        some ⟨secs⟩ ∧
      secs.length = ([⟨['1'], ['A'], [['x']]⟩] : List Block).length ∧
      secs.map Section.title =
        ([⟨['1'], ['A'], [['x']]⟩] : List Block).map Block.title ∧
      joinLines (secs.map Section.content) =
        docText [⟨['1'], ['A'], [['x']]⟩] :=
  ⟨⟨by decide, by decide, by decide⟩,
    parse_content_roundtrip _ (by decide) (by decide) (by decide)⟩

end PyCheat
